import Mathlib

/-!
Shallow embedding of the rule-based transaction classification engine
(`src/rule/rule-engine.service.ts`) and of the save-and-classify batch
pipeline that consumes it.  Strings are modelled as lists of characters,
JavaScript numbers used for monetary amounts as integers, and the two
in-memory cache maps as association lists.  Stateful operations are
modelled by explicit state passing; the boolean component of their
results records whether the underlying rule store was invoked.
-/

/-- Strings are modelled as lists of characters. -/
abbrev Str := List Char

/-- Embedding of `String.prototype.toLowerCase`. -/
def toLowerCase (s : Str) : Str := s.map Char.toLower

/-- Embedding of `String.prototype.trim`: drop whitespace from both ends. -/
def trim (s : Str) : Str :=
  ((s.dropWhile Char.isWhitespace).reverse.dropWhile Char.isWhitespace).reverse

/-- Embedding of `String.prototype.includes`: substring containment. -/
def strIncludes (hay needle : Str) : Bool :=
  decide (needle <:+: hay)

/-- Embedding of `String.prototype.split(/\s+/)`: split at maximal runs of
whitespace.  A leading or trailing run contributes an empty chunk, exactly
as in JavaScript. -/
def splitWs : Str → List Str
  | [] => [[]]
  | c :: rest =>
    if c.isWhitespace then
      match rest with
      | [] => [[], []]
      | d :: rest2 =>
        if d.isWhitespace then splitWs (d :: rest2)
        else [] :: splitWs (d :: rest2)
    else
      match splitWs rest with
      | [] => [[c]]
      | w :: ws => (c :: w) :: ws

/-- Transaction-type filter of a rule (`TransactionType` enum). -/
inductive TransactionType
  | DEPOSIT
  | WITHDRAWAL
  | ALL
deriving DecidableEq, Repr

/-- Kind of a rule keyword (`KeywordType` enum). -/
inductive KeywordType
  | INCLUDE
  | EXCLUDE
deriving DecidableEq, Repr

/-- Embedding of the `RuleKeyword` entity (the fields read by the engine). -/
structure RuleKeyword where
  keyword : Str
  keyword_type : KeywordType
deriving DecidableEq, Repr

/-- Embedding of the `ClassificationRule` entity (the fields read by the
engine); `category_name` models the optional `category?.category_name`
navigation. -/
structure ClassificationRule where
  rule_id : Nat
  company_id : Str
  category_id : Str
  category_name : Option Str
  min_amount : Option Int
  max_amount : Option Int
  transaction_type : TransactionType
  priority : Int
  keywords : List RuleKeyword
deriving DecidableEq, Repr

/-- Embedding of the `TransactionData` interface (the fields read by the
matcher). -/
structure TransactionData where
  description : Str
  depositAmount : Int
  withdrawalAmount : Int
deriving DecidableEq, Repr

/-- Caller identity: administrators classify across all companies. -/
inductive UserType
  | ADMIN
  | USER
deriving DecidableEq, Repr

/-- Embedding of the `ClassificationContext` interface. -/
structure ClassificationContext where
  companyId : Str
  userType : UserType
  transactionData : TransactionData
deriving DecidableEq, Repr

/-- Embedding of the `ClassificationResult` interface; absent optional
fields are `none` / `[]`. -/
structure ClassificationResult where
  isClassified : Bool
  categoryId : Option Str := none
  categoryName : Option Str := none
  ruleId : Option Nat := none
  matchedKeywords : List Str := []
  reason : Option Str := none
  actualCompanyId : Option Str := none
deriving DecidableEq, Repr

/-- Failure reason for an administrator finding no rules at all. -/
def reasonNoRulesAdmin : Str := "No active rules found for any company".toList

/-- Failure reason for a company with no active rules. -/
def reasonNoRulesCompany : Str := "No active rules found for company".toList

/-- Failure reason when no rule matches the transaction. -/
def reasonNoMatch : Str := "No matching rules found".toList

/-- Success reason string. -/
def reasonSuccess : Str := "Successfully classified".toList

/-- Failure reason produced by the catch-all error handler. -/
def reasonError : Str := "Classification error occurred".toList

/-- Embedding of `isKeywordMatch`: exact whole-word match against the
whitespace-split words of the description, or substring containment. -/
def isKeywordMatch (description keyword : Str) : Bool :=
  (splitWs description).any (fun word => word == keyword) ||
    strIncludes description keyword

/-- Embedding of `checkTransactionType`. -/
def checkTransactionType (transactionData : TransactionData)
    (ruleTransactionType : TransactionType) : Bool :=
  if ruleTransactionType = TransactionType.ALL then
    true
  else
    let isDeposit := decide (transactionData.depositAmount > 0)
    let isWithdrawal := decide (transactionData.withdrawalAmount > 0)
    match ruleTransactionType with
    | TransactionType.DEPOSIT => isDeposit && !isWithdrawal
    | TransactionType.WITHDRAWAL => isWithdrawal && !isDeposit
    | TransactionType.ALL => true

/-- Embedding of `checkAmountRange`: the transaction amount is the larger
of the deposit and withdrawal amounts; each bound is enforced only when
present. -/
def checkAmountRange (transactionData : TransactionData)
    (rule : ClassificationRule) : Bool :=
  let transactionAmount :=
    max transactionData.depositAmount transactionData.withdrawalAmount
  if rule.min_amount.any (fun m => decide (transactionAmount < m)) then
    false
  else if rule.max_amount.any (fun m => decide (transactionAmount > m)) then
    false
  else
    true

/-- Embedding of `checkKeywordMatching`: excludes veto first, then at
least one include keyword must fire unless there are none. -/
def checkKeywordMatching (transactionData : TransactionData)
    (rule : ClassificationRule) : Bool :=
  if rule.keywords.isEmpty then
    true
  else
    let description := trim (toLowerCase transactionData.description)
    let includeKeywords :=
      rule.keywords.filter (fun k => k.keyword_type = KeywordType.INCLUDE)
    let excludeKeywords :=
      rule.keywords.filter (fun k => k.keyword_type = KeywordType.EXCLUDE)
    if excludeKeywords.any
        (fun k => isKeywordMatch description (trim (toLowerCase k.keyword))) then
      false
    else if includeKeywords.isEmpty then
      true
    else
      includeKeywords.any
        (fun k => isKeywordMatch description (trim (toLowerCase k.keyword)))

/-- Embedding of `evaluateRule`: type, amount and keyword stages must all
pass. -/
def evaluateRule (transactionData : TransactionData)
    (rule : ClassificationRule) : Bool :=
  checkTransactionType transactionData rule.transaction_type &&
    checkAmountRange transactionData rule &&
    checkKeywordMatching transactionData rule

/-- Embedding of `findMatchingRules`: keep, in order, the rules that
evaluate to a match. -/
def findMatchingRules (transactionData : TransactionData)
    (rules : List ClassificationRule) : List ClassificationRule :=
  rules.filter (fun rule => evaluateRule transactionData rule)

/-- Embedding of `selectBestRule`: stable ascending sort by priority
(`toSorted` is stable), then the first element.  On the empty list the
JavaScript code would yield `undefined`; this is modelled by `none`. -/
def selectBestRule (matchedRules : List ClassificationRule) :
    Option ClassificationRule :=
  (List.insertionSort
    (fun a b : ClassificationRule => a.priority ≤ b.priority)
    matchedRules).head?

/-- Embedding of `getMatchedKeywords`: the INCLUDE keywords whose
lower-cased text occurs in the lower-cased description (no trimming
here, matching the source). -/
def getMatchedKeywords (transactionData : TransactionData)
    (rule : ClassificationRule) : List Str :=
  if rule.keywords.isEmpty then
    []
  else
    let description := toLowerCase transactionData.description
    ((rule.keywords.filter (fun k => k.keyword_type = KeywordType.INCLUDE)).filter
        (fun k => strIncludes description (toLowerCase k.keyword))).map
      (fun k => k.keyword)

/-- Result returned when no rule matched. -/
def noMatchResult : ClassificationResult :=
  { isClassified := false, reason := some reasonNoMatch }

/-- Result returned by the catch-all error handler. -/
def errorResult : ClassificationResult :=
  { isClassified := false, reason := some reasonError }

/-- Pure classification core (`classifyTransaction` lines after the rule
fetch): empty candidate list, no matching rule, and success paths.
Reaching `selectBestRule` with an empty list would dereference
`undefined` in the source and land in the catch block; that dead branch
is mapped to the error result. -/
def classifyCore (userType : UserType) (transactionData : TransactionData)
    (rules : List ClassificationRule) : ClassificationResult :=
  if rules.isEmpty then
    { isClassified := false
      reason := some (match userType with
        | UserType.ADMIN => reasonNoRulesAdmin
        | UserType.USER => reasonNoRulesCompany) }
  else
    let matchedRules := findMatchingRules transactionData rules
    if matchedRules.isEmpty then
      noMatchResult
    else
      match selectBestRule matchedRules with
      | none => errorResult
      | some selectedRule =>
        { isClassified := true
          categoryId := some selectedRule.category_id
          categoryName := selectedRule.category_name
          ruleId := some selectedRule.rule_id
          matchedKeywords := getMatchedKeywords transactionData selectedRule
          reason := some reasonSuccess
          actualCompanyId := some selectedRule.company_id }

/-- Embedding of `classifyTransaction`: the outcome of the rule fetch is
passed in explicitly; a fetch failure is absorbed by the surrounding
try/catch into the error result, so the function is total and never
propagates an exception. -/
def classifyTransaction (fetchOutcome : Except Unit (List ClassificationRule))
    (userType : UserType) (transactionData : TransactionData) :
    ClassificationResult :=
  match fetchOutcome with
  | Except.error _ => errorResult
  | Except.ok rules => classifyCore userType transactionData rules

/-- External rule store (`RuleDataService`): per-company active rules and
the all-companies rule list. -/
structure RuleEnv where
  rulesByCompany : Str → List ClassificationRule
  allActiveRules : List ClassificationRule

/-- State of the two in-memory cache maps, as association lists with
at most one binding per key. -/
structure CacheState where
  rulesCache : List (Str × List ClassificationRule)
  cacheExpiry : List (Str × Nat)
deriving Repr

/-- Cache state with both maps empty. -/
def emptyCache : CacheState := { rulesCache := [], cacheExpiry := [] }

/-- Embedding of `Map.prototype.set`: bind a key, dropping any previous
binding. -/
def mapSet {β : Type} (m : List (Str × β)) (k : Str) (v : β) :
    List (Str × β) :=
  (k, v) :: m.filter (fun p => !(p.1 == k))

/-- Cache TTL in milliseconds (5 minutes). -/
def CACHE_TTL : Nat := 5 * 60 * 1000

/-- Cache key used for one company's rules. -/
def rulesKey (companyId : Str) : Str := "rules_".toList ++ companyId

/-- Cache key used for the all-companies rule list. -/
def rulesKeyAll : Str := "rules_all_companies".toList

/-- Embedding of `getCachedRules`: return a cached entry only while its
expiry is a truthy timestamp strictly in the future, otherwise fetch
from the rule store and rebind both maps.  The boolean records whether
the store was invoked. -/
def getCachedRules (env : RuleEnv) (st : CacheState) (now : Nat)
    (companyId : Str) : List ClassificationRule × CacheState × Bool :=
  let cacheKey := rulesKey companyId
  let fetch : List ClassificationRule × CacheState × Bool :=
    let rules := env.rulesByCompany companyId
    (rules,
      { rulesCache := mapSet st.rulesCache cacheKey rules
        cacheExpiry := mapSet st.cacheExpiry cacheKey (now + CACHE_TTL) },
      true)
  match st.rulesCache.lookup cacheKey with
  | some cached =>
    match st.cacheExpiry.lookup cacheKey with
    | some expiry => if expiry ≠ 0 ∧ expiry > now then (cached, st, false) else fetch
    | none => fetch
  | none => fetch

/-- Embedding of `getAllCompanyRules`: identical caching under the
all-companies key, fetching every company's active rules. -/
def getAllCompanyRules (env : RuleEnv) (st : CacheState) (now : Nat) :
    List ClassificationRule × CacheState × Bool :=
  let cacheKey := rulesKeyAll
  let fetch : List ClassificationRule × CacheState × Bool :=
    let rules := env.allActiveRules
    (rules,
      { rulesCache := mapSet st.rulesCache cacheKey rules
        cacheExpiry := mapSet st.cacheExpiry cacheKey (now + CACHE_TTL) },
      true)
  match st.rulesCache.lookup cacheKey with
  | some cached =>
    match st.cacheExpiry.lookup cacheKey with
    | some expiry => if expiry ≠ 0 ∧ expiry > now then (cached, st, false) else fetch
    | none => fetch
  | none => fetch

/-- Embedding of `invalidateRulesCache`: drop one company's entry from
both maps. -/
def invalidateRulesCache (st : CacheState) (companyId : Str) : CacheState :=
  { rulesCache := st.rulesCache.filter (fun p => !(p.1 == rulesKey companyId))
    cacheExpiry := st.cacheExpiry.filter (fun p => !(p.1 == rulesKey companyId)) }

/-- Stateful run of `classifyTransaction`: administrators load the
all-companies rule set, other callers the requesting company's cached
rules, then the pure core classifies. -/
def classifyTransactionRun (env : RuleEnv) (st : CacheState) (now : Nat)
    (context : ClassificationContext) : ClassificationResult × CacheState :=
  match context.userType with
  | UserType.ADMIN =>
    let (rules, st2, _) := getAllCompanyRules env st now
    (classifyCore UserType.ADMIN context.transactionData rules, st2)
  | UserType.USER =>
    let (rules, st2, _) := getCachedRules env st now context.companyId
    (classifyCore UserType.USER context.transactionData rules, st2)

/-- Per-transaction body of the batch loop (`classifyTransactionsBatch`
lines 316-357): unlike the single-transaction path, the produced result
carries no `actualCompanyId`. -/
def batchClassifyOne (rules : List ClassificationRule)
    (transaction : TransactionData) : ClassificationResult :=
  let matchedRules := findMatchingRules transaction rules
  if matchedRules.isEmpty then
    noMatchResult
  else
    match selectBestRule matchedRules with
    | none => errorResult
    | some selectedRule =>
      { isClassified := true
        categoryId := some selectedRule.category_id
        categoryName := selectedRule.category_name
        ruleId := some selectedRule.rule_id
        matchedKeywords := getMatchedKeywords transaction selectedRule
        reason := some reasonSuccess }

/-- Embedding of `classifyTransactionsBatch`: empty input short-circuits
before any cache access; otherwise the company's rules are loaded through
the cache exactly once and reused for every transaction.  The final
number counts rule-store invocations. -/
def classifyTransactionsBatch (env : RuleEnv) (st : CacheState) (now : Nat)
    (companyId : Str) (transactions : List TransactionData) :
    List ClassificationResult × CacheState × Nat :=
  if transactions.isEmpty then
    ([], st, 0)
  else
    let (rules, st2, fetched) := getCachedRules env st now companyId
    let fetchCount := if fetched then 1 else 0
    if rules.isEmpty then
      (transactions.map (fun _ =>
        { isClassified := false, reason := some reasonNoRulesCompany }),
        st2, fetchCount)
    else
      (transactions.map (fun transaction => batchClassifyOne rules transaction),
        st2, fetchCount)

/-- JavaScript truthiness of an optional string: present and non-empty. -/
def truthyStr : Option Str → Bool
  | some s => !s.isEmpty
  | none => false

/-- Record of per-category counts (`Record<string, number>`), as an
association list with at most one binding per key. -/
def bumpCategory (m : List (Str × Nat)) (c : Str) : List (Str × Nat) :=
  match m.lookup c with
  | some n => mapSet m c (n + 1)
  | none => mapSet m c 1

/-- One iteration of the category-count loop of
`generateClassificationStats`: a classified result is counted only when
its `categoryId` is truthy (present and non-empty). -/
def bumpCategoryStep (m : List (Str × Nat)) (r : ClassificationResult) :
    List (Str × Nat) :=
  match r.categoryId with
  | some c => if c.isEmpty then m else bumpCategory m c
  | none => m

/-- Sum of the per-category counters. -/
def sumVals (m : List (Str × Nat)) : Nat := (m.map Prod.snd).sum

/-- Distinctness of the keys of an association list; `mapSet` and
`bumpCategory` preserve it, mirroring a JavaScript record. -/
def NodupKeys (m : List (Str × Nat)) : Prop := (m.map Prod.fst).Nodup

/-- Statistics shape returned by `generateClassificationStats`. -/
structure ClassificationStats where
  totalCount : Nat
  classifiedCount : Nat
  unclassifiedCount : Nat
  categoryStats : List (Str × Nat)
deriving DecidableEq, Repr

/-- Embedding of `generateClassificationStats`: a classified result is
counted towards its category only when its `categoryId` is truthy. -/
def generateClassificationStats (results : List ClassificationResult) :
    ClassificationStats :=
  let totalCount := results.length
  let classifiedResults := results.filter (fun r => r.isClassified)
  let classifiedCount := classifiedResults.length
  let unclassifiedCount := totalCount - classifiedCount
  let categoryStats := classifiedResults.foldl bumpCategoryStep []
  { totalCount := totalCount
    classifiedCount := classifiedCount
    unclassifiedCount := unclassifiedCount
    categoryStats := categoryStats }

/-- The tenant/category columns assigned to a persisted `Transaction`
entity by `processBatch`. -/
structure TransactionAssignment where
  company_id : Option Str
  category_id : Option Str
deriving DecidableEq, Repr

/-- Assignment step of `processBatch`: only a successful classification
with a truthy `categoryId` receives company and category; an
administrator stores the actually matched company when one is present;
all other transactions are explicitly nulled out. -/
def assignTransaction (userType : UserType) (requestCompanyId : Str)
    (classificationResult : ClassificationResult) : TransactionAssignment :=
  if classificationResult.isClassified &&
      truthyStr classificationResult.categoryId then
    { company_id := some
        (if userType = UserType.ADMIN &&
            truthyStr classificationResult.actualCompanyId then
          classificationResult.actualCompanyId.getD []
        else
          requestCompanyId)
      category_id := classificationResult.categoryId }
  else
    { company_id := none, category_id := none }

/-- Aggregate counters of one `processBatch` call. -/
structure BatchCounts where
  totalProcessed : Nat
  classifiedCount : Nat
  unclassifiedCount : Nat
  errorCount : Nat
deriving DecidableEq, Repr

/-- One iteration of the per-transaction loop of `processBatch`: an
outcome entry is the result of decrypting and classifying one parsed
transaction; an exception there skips the counters and records an error,
otherwise the entity is assigned and exactly one of the
classified/unclassified counters advances together with
`totalProcessed`. -/
def processBatchStep (userType : UserType) (requestCompanyId : Str)
    (acc : BatchCounts × List TransactionAssignment)
    (outcome : Except Unit ClassificationResult) :
    BatchCounts × List TransactionAssignment :=
  match outcome with
  | Except.error _ =>
    ({ acc.1 with errorCount := acc.1.errorCount + 1 }, acc.2)
  | Except.ok classificationResult =>
    let entity := assignTransaction userType requestCompanyId
      classificationResult
    let counts :=
      if classificationResult.isClassified &&
          truthyStr classificationResult.categoryId then
        { acc.1 with classifiedCount := acc.1.classifiedCount + 1 }
      else
        { acc.1 with unclassifiedCount := acc.1.unclassifiedCount + 1 }
    ({ counts with totalProcessed := counts.totalProcessed + 1 },
      acc.2 ++ [entity])

/-- Embedding of the per-transaction loop of `processBatch`, folding
`processBatchStep` over the outcome of each parsed transaction. -/
def processBatch (userType : UserType) (requestCompanyId : Str)
    (outcomes : List (Except Unit ClassificationResult)) :
    BatchCounts × List TransactionAssignment :=
  outcomes.foldl (processBatchStep userType requestCompanyId)
    ({ totalProcessed := 0, classifiedCount := 0, unclassifiedCount := 0
       errorCount := 0 }, [])

/-- Concrete rule with priority 2 for the resolver witness. -/
def rulePrioTwo : ClassificationRule :=
  { rule_id := 2, company_id := "c1".toList, category_id := "catB".toList,
    category_name := none, min_amount := none, max_amount := none,
    transaction_type := TransactionType.ALL, priority := 2, keywords := [] }

/-- Concrete rule with priority 1 for the resolver witness. -/
def rulePrioOne : ClassificationRule :=
  { rule_id := 1, company_id := "c1".toList, category_id := "catA".toList,
    category_name := none, min_amount := none, max_amount := none,
    transaction_type := TransactionType.ALL, priority := 1, keywords := [] }

/-- Concrete rule matching every transaction, owned by company `c2`;
used to exhibit the privileged/batch divergence. -/
def ruleMatchAll : ClassificationRule :=
  { rule_id := 9, company_id := "c2".toList, category_id := "catX".toList,
    category_name := none, min_amount := none, max_amount := none,
    transaction_type := TransactionType.ALL, priority := 1, keywords := [] }

/-- Concrete rule environment where only the all-companies rule list has
a (universally matching) rule, while every per-company list is empty. -/
def envAllOnly : RuleEnv :=
  { rulesByCompany := fun _ => [], allActiveRules := [ruleMatchAll] }

/-- Concrete withdrawal transaction used in closed instances. -/
def txWithdraw : TransactionData :=
  { description := "x".toList, depositAmount := 0, withdrawalAmount := 5 }

/-- C3: the amount check uses the larger of the deposit and withdrawal
amounts with inclusive bounds; an absent bound imposes no constraint; a
rule bounded by 1000 and 50000 passes at 1000 and 50000 and fails at 999
and 50001. -/
theorem checkAmountRange_spec (td : TransactionData)
    (rule : ClassificationRule) :
    (checkAmountRange td rule = true ↔
      ((∀ m, rule.min_amount = some m →
          m ≤ max td.depositAmount td.withdrawalAmount) ∧
        (∀ m, rule.max_amount = some m →
          max td.depositAmount td.withdrawalAmount ≤ m))) ∧
    (rule.min_amount = some 1000 → rule.max_amount = some 50000 →
      ((max td.depositAmount td.withdrawalAmount = 1000 →
          checkAmountRange td rule = true) ∧
        (max td.depositAmount td.withdrawalAmount = 50000 →
          checkAmountRange td rule = true) ∧
        (max td.depositAmount td.withdrawalAmount = 999 →
          checkAmountRange td rule = false) ∧
        (max td.depositAmount td.withdrawalAmount = 50001 →
          checkAmountRange td rule = false))) := by
  constructor
  · cases hmin : rule.min_amount <;> cases hmax : rule.max_amount <;>
      simp [checkAmountRange, hmin, hmax, Option.any] <;> omega
  · intro hmin hmax
    refine ⟨?_, ?_, ?_, ?_⟩ <;> intro hA <;>
      simp [checkAmountRange, hmin, hmax, Option.any, hA] <;> omega

/-- Closed witness for `checkAmountRange_spec` at a concrete transaction
and rule. -/
theorem checkAmountRange_spec_witness :
    (checkAmountRange
        { description := "coffee".toList, depositAmount := 0,
          withdrawalAmount := 1000 }
        { rule_id := 1, company_id := "c1".toList,
          category_id := "cat1".toList, category_name := none,
          min_amount := some 1000, max_amount := some 50000,
          transaction_type := TransactionType.ALL, priority := 1,
          keywords := [] } = true) ∧
    (checkAmountRange
        { description := "coffee".toList, depositAmount := 0,
          withdrawalAmount := 999 }
        { rule_id := 1, company_id := "c1".toList,
          category_id := "cat1".toList, category_name := none,
          min_amount := some 1000, max_amount := some 50000,
          transaction_type := TransactionType.ALL, priority := 1,
          keywords := [] } = false) := by
  constructor
  · exact ((checkAmountRange_spec
      { description := "coffee".toList, depositAmount := 0,
        withdrawalAmount := 1000 }
      { rule_id := 1, company_id := "c1".toList,
        category_id := "cat1".toList, category_name := none,
        min_amount := some 1000, max_amount := some 50000,
        transaction_type := TransactionType.ALL, priority := 1,
        keywords := [] }).2 rfl rfl).1 (by decide)
  · exact (((checkAmountRange_spec
      { description := "coffee".toList, depositAmount := 0,
        withdrawalAmount := 999 }
      { rule_id := 1, company_id := "c1".toList,
        category_id := "cat1".toList, category_name := none,
        min_amount := some 1000, max_amount := some 50000,
        transaction_type := TransactionType.ALL, priority := 1,
        keywords := [] }).2 rfl rfl).2.2.1 (by decide))

/-- C4: the type filter passes `ALL` unconditionally; `DEPOSIT` passes
iff the deposit is positive and the withdrawal zero; `WITHDRAWAL` is
symmetric; a `DEPOSIT` rule never matches a pure withdrawal, and a
transaction with both amounts positive fails both filters. -/
theorem checkTransactionType_spec (td : TransactionData)
    (hdep : 0 ≤ td.depositAmount) (hwd : 0 ≤ td.withdrawalAmount) :
    (checkTransactionType td TransactionType.ALL = true) ∧
    (checkTransactionType td TransactionType.DEPOSIT = true ↔
      0 < td.depositAmount ∧ td.withdrawalAmount = 0) ∧
    (checkTransactionType td TransactionType.WITHDRAWAL = true ↔
      0 < td.withdrawalAmount ∧ td.depositAmount = 0) ∧
    (∀ rule : ClassificationRule,
      rule.transaction_type = TransactionType.DEPOSIT →
      0 < td.withdrawalAmount → td.depositAmount = 0 →
      evaluateRule td rule = false) ∧
    (0 < td.depositAmount → 0 < td.withdrawalAmount →
      checkTransactionType td TransactionType.DEPOSIT = false ∧
      checkTransactionType td TransactionType.WITHDRAWAL = false) := by
  refine ⟨rfl, ?_, ?_, ?_, ?_⟩
  · simp [checkTransactionType]
    omega
  · simp [checkTransactionType]
    omega
  · intro rule htype hw hd
    have hty : checkTransactionType td rule.transaction_type = false := by
      rw [htype]
      simp [checkTransactionType]
      omega
    simp [evaluateRule, hty]
  · intro hd hw
    constructor <;> simp [checkTransactionType] <;> omega

/-- Closed witness for `checkTransactionType_spec` at a concrete
transaction. -/
theorem checkTransactionType_spec_witness :
    checkTransactionType
      { description := "x".toList, depositAmount := 7,
        withdrawalAmount := 0 }
      TransactionType.DEPOSIT = true := by
  exact (checkTransactionType_spec
    { description := "x".toList, depositAmount := 7, withdrawalAmount := 0 }
    (by decide) (by decide)).2.1.mpr (by decide)

/-- The chunk list produced for a string headed by a whitespace character
starts with the empty chunk. -/
theorem splitWs_head_of_ws :
    ∀ (r : List Char) (d : Char), d.isWhitespace = true →
      ∃ t, splitWs (d :: r) = [] :: t := by
  intro r
  induction r with
  | nil =>
    intro d hd
    exact ⟨[[]], by simp [splitWs, hd]⟩
  | cons e r2 ih =>
    intro d hd
    by_cases he : e.isWhitespace = true
    · obtain ⟨t, ht⟩ := ih e he
      exact ⟨t, by simp [splitWs, hd, he]; simpa [splitWs, he] using ht⟩
    · exact ⟨splitWs (e :: r2), by simp [splitWs, hd, he]⟩

/-- Unfolding of `splitWs` at a non-whitespace head character. -/
theorem splitWs_cons_not_ws (c : Char) (rest : List Char)
    (hc : ¬c.isWhitespace = true) :
    splitWs (c :: rest) =
      match splitWs rest with
      | [] => [[c]]
      | w :: ws => (c :: w) :: ws := by
  cases rest with
  | nil => simp [splitWs, hc]
  | cons d rest2 => simp [splitWs, hc]

/-- The first chunk of `splitWs` is a prefix of the string; every later
chunk is an infix. -/
theorem splitWs_chunks :
    ∀ l : Str, ∀ w ws, splitWs l = w :: ws →
      w <+: l ∧ ∀ u ∈ ws, u <:+: l := by
  intro l
  induction l using splitWs.induct with
  | case1 =>
    intro w ws h
    simp only [splitWs] at h
    obtain ⟨rfl, rfl⟩ : w = [] ∧ ws = [] := by
      constructor <;> [exact (List.cons.injEq ..).mp h |>.1.symm;
        exact (List.cons.injEq ..).mp h |>.2.symm]
    exact ⟨ List.nil_prefix, by simp⟩
  | case2 c hc =>
    intro w ws h
    simp only [splitWs, hc, if_pos] at h
    obtain ⟨rfl, rfl⟩ : w = [] ∧ ws = [[]] := by
      constructor <;> [exact ((List.cons.injEq ..).mp h).1.symm;
        exact ((List.cons.injEq ..).mp h).2.symm]
    exact ⟨ List.nil_prefix, by simp⟩
  | case3 c hc d rest2 hd ih =>
    intro w ws h
    have hstep : splitWs (c :: d :: rest2) = splitWs (d :: rest2) := by
      simp [splitWs, hc, hd]
    rw [hstep] at h
    obtain ⟨t, ht⟩ := splitWs_head_of_ws rest2 d hd
    have hw : w = [] := by
      rw [ht] at h
      exact ((List.cons.injEq ..).mp h).1.symm
    subst hw
    refine ⟨ List.nil_prefix, ?_⟩
    intro u hu
    exact List.infix_cons ((ih [] ws h).2 u hu)
  | case4 c hc d rest2 hd ih =>
    intro w ws h
    have hstep : splitWs (c :: d :: rest2) = [] :: splitWs (d :: rest2) := by
      simp [splitWs, hc, hd]
    rw [hstep] at h
    have hw : w = [] := ((List.cons.injEq ..).mp h).1.symm
    have hws : ws = splitWs (d :: rest2) := ((List.cons.injEq ..).mp h).2.symm
    subst hw
    refine ⟨ List.nil_prefix, ?_⟩
    intro u hu
    rw [hws] at hu
    cases hs : splitWs (d :: rest2) with
    | nil => rw [hs] at hu; cases hu
    | cons w0 ws0 =>
      rw [hs] at hu
      obtain ⟨hpre, hinf⟩ := ih w0 ws0 hs
      rcases List.mem_cons.mp hu with huw | hutl
      · exact List.infix_cons (huw ▸ hpre.isInfix)
      · exact List.infix_cons (hinf u hutl)
  | case5 c rest hc hrest ih =>
    intro w ws h
    have hstep : splitWs (c :: rest) = [[c]] := by
      rw [splitWs_cons_not_ws c rest hc, hrest]
    rw [hstep] at h
    have hw : w = [c] := ((List.cons.injEq ..).mp h).1.symm
    have hws : ws = [] := ((List.cons.injEq ..).mp h).2.symm
    subst hw; subst hws
    exact ⟨⟨rest, rfl⟩, by simp⟩
  | case6 c rest hc w0 ws0 hrest ih =>
    intro w ws h
    have hstep : splitWs (c :: rest) = (c :: w0) :: ws0 := by
      rw [splitWs_cons_not_ws c rest hc, hrest]
    rw [hstep] at h
    have hw : w = c :: w0 := ((List.cons.injEq ..).mp h).1.symm
    have hws : ws = ws0 := ((List.cons.injEq ..).mp h).2.symm
    subst hw; subst hws
    obtain ⟨hpre, hinf⟩ := ih w0 ws hrest
    constructor
    · obtain ⟨t, ht⟩ := hpre
      exact ⟨t, by simp [← ht]⟩
    · intro u hu
      exact List.infix_cons (hinf u hu)

/-- Every chunk of the whitespace split is an infix of the original
string. -/
theorem mem_splitWs_infix (l w : Str) (hw : w ∈ splitWs l) : w <:+: l := by
  cases hs : splitWs l with
  | nil => rw [hs] at hw; cases hw
  | cons w0 ws0 =>
    rw [hs] at hw
    obtain ⟨hpre, hinf⟩ := splitWs_chunks l w0 ws0 hs
    rcases List.mem_cons.mp hw with hww | hwtl
    · exact hww ▸ hpre.isInfix
    · exact hinf w hwtl

/-- C10: the whole-word branch of `isKeywordMatch` is redundant — the
predicate coincides with plain substring containment, because every
whitespace-split word of the description is itself an infix of it. -/
theorem isKeywordMatch_eq_strIncludes (description keyword : Str) :
    isKeywordMatch description keyword = strIncludes description keyword := by
  unfold isKeywordMatch
  cases h : (splitWs description).any (fun word => word == keyword) with
  | false => simp
  | true =>
    obtain ⟨w, hw, hwk⟩ := List.any_eq_true.mp h
    have hweq : w = keyword := by simpa using hwk
    subst hweq
    have hinf : w <:+: description := mem_splitWs_infix description w hw
    have hincl : strIncludes description w = true := by
      simp [strIncludes, hinf]
    simp [hincl]

/-- C2: an EXCLUDE keyword firing on the normalized description vetoes
the rule regardless of INCLUDE keywords, and with no EXCLUDE hit and
zero INCLUDE keywords the keyword stage passes automatically. -/
theorem checkKeywordMatching_spec (td : TransactionData)
    (rule : ClassificationRule) :
    ((∃ k ∈ rule.keywords, k.keyword_type = KeywordType.EXCLUDE ∧
        isKeywordMatch (trim (toLowerCase td.description))
          (trim (toLowerCase k.keyword)) = true) →
      checkKeywordMatching td rule = false ∧ evaluateRule td rule = false) ∧
    ((∀ k ∈ rule.keywords, k.keyword_type = KeywordType.EXCLUDE →
        isKeywordMatch (trim (toLowerCase td.description))
          (trim (toLowerCase k.keyword)) = false) →
      (∀ k ∈ rule.keywords, k.keyword_type ≠ KeywordType.INCLUDE) →
      checkKeywordMatching td rule = true) := by
  constructor
  · rintro ⟨k, hk, hex, hmatch⟩
    have hne : rule.keywords.isEmpty = false := by
      cases hkw : rule.keywords with
      | nil => rw [hkw] at hk; cases hk
      | cons a l => simp
    have hany :
        (rule.keywords.filter
            (fun k => k.keyword_type = KeywordType.EXCLUDE)).any
          (fun k => isKeywordMatch (trim (toLowerCase td.description))
            (trim (toLowerCase k.keyword))) = true := by
      exact List.any_eq_true.mpr
        ⟨k, List.mem_filter.mpr ⟨hk, by simp [hex]⟩, hmatch⟩
    have hfalse : checkKeywordMatching td rule = false := by
      simp only [checkKeywordMatching, hne, Bool.false_eq_true, if_false,
        hany, if_true]
    exact ⟨hfalse, by simp [evaluateRule, hfalse]⟩
  · intro hexc hinc
    cases hkw : rule.keywords with
    | nil => simp [checkKeywordMatching, hkw]
    | cons a l =>
      have hany :
          (rule.keywords.filter
              (fun k => k.keyword_type = KeywordType.EXCLUDE)).any
            (fun k => isKeywordMatch (trim (toLowerCase td.description))
              (trim (toLowerCase k.keyword))) = false := by
        apply List.any_eq_false.mpr
        intro k hkmem
        obtain ⟨hkmem', hktype⟩ := List.mem_filter.mp hkmem
        simp only [decide_eq_true_eq] at hktype
        simp [hexc k hkmem' hktype]
      have hincl :
          (rule.keywords.filter
              (fun k => k.keyword_type = KeywordType.INCLUDE)).isEmpty
            = true := by
        rw [List.isEmpty_iff]
        apply List.filter_eq_nil_iff.mpr
        intro k hkmem
        simp [hinc k hkmem]
      simp only [checkKeywordMatching, hkw, List.isEmpty_cons,
        Bool.false_eq_true, if_false]
      rw [← hkw]
      simp only [hany, Bool.false_eq_true, if_false, hincl, if_true]

/-- Closed witness for `checkKeywordMatching_spec`: a description hitting
both an INCLUDE and an EXCLUDE keyword is vetoed, and a rule with only
EXCLUDE keywords that miss passes the keyword stage. -/
theorem checkKeywordMatching_spec_witness :
    (checkKeywordMatching
        { description := "coffee refund".toList, depositAmount := 0,
          withdrawalAmount := 5 }
        { rule_id := 1, company_id := "c1".toList,
          category_id := "cat1".toList, category_name := none,
          min_amount := none, max_amount := none,
          transaction_type := TransactionType.ALL, priority := 1,
          keywords := [{ keyword := "coffee".toList,
                         keyword_type := KeywordType.INCLUDE },
                       { keyword := "refund".toList,
                         keyword_type := KeywordType.EXCLUDE }] } = false) ∧
    (checkKeywordMatching
        { description := "coffee".toList, depositAmount := 0,
          withdrawalAmount := 5 }
        { rule_id := 1, company_id := "c1".toList,
          category_id := "cat1".toList, category_name := none,
          min_amount := none, max_amount := none,
          transaction_type := TransactionType.ALL, priority := 1,
          keywords := [{ keyword := "refund".toList,
                         keyword_type := KeywordType.EXCLUDE }] } = true) := by
  constructor
  · exact (checkKeywordMatching_spec
      { description := "coffee refund".toList, depositAmount := 0,
        withdrawalAmount := 5 }
      { rule_id := 1, company_id := "c1".toList,
        category_id := "cat1".toList, category_name := none,
        min_amount := none, max_amount := none,
        transaction_type := TransactionType.ALL, priority := 1,
        keywords := [{ keyword := "coffee".toList,
                       keyword_type := KeywordType.INCLUDE },
                     { keyword := "refund".toList,
                       keyword_type := KeywordType.EXCLUDE }] }).1
      ⟨{ keyword := "refund".toList, keyword_type := KeywordType.EXCLUDE },
        by decide, rfl, by decide⟩ |>.1
  · exact (checkKeywordMatching_spec
      { description := "coffee".toList, depositAmount := 0,
        withdrawalAmount := 5 }
      { rule_id := 1, company_id := "c1".toList,
        category_id := "cat1".toList, category_name := none,
        min_amount := none, max_amount := none,
        transaction_type := TransactionType.ALL, priority := 1,
        keywords := [{ keyword := "refund".toList,
                       keyword_type := KeywordType.EXCLUDE }] }).2
      (by intro k hk htype; fin_cases hk <;> decide)
      (by intro k hk; fin_cases hk <;> decide)

/-- C5: the resolver returns a matched rule of minimal priority, and
among equal minimal priorities the first in input order — the sort
underlying `selectBestRule` is stable. -/
theorem selectBestRule_spec :
    ∀ (matchedRules : List ClassificationRule) (r : ClassificationRule),
      selectBestRule matchedRules = some r →
      r ∈ matchedRules ∧
      (∀ s ∈ matchedRules, r.priority ≤ s.priority) ∧
      ∃ pre post, matchedRules = pre ++ r :: post ∧
        ∀ s ∈ pre, r.priority < s.priority := by
  intro rs
  induction rs with
  | nil =>
    intro r h
    simp [selectBestRule, List.insertionSort] at h
  | cons x xs ih =>
    intro r h
    unfold selectBestRule at h
    rw [List.insertionSort] at h
    cases hs : List.insertionSort
        (fun a b : ClassificationRule => a.priority ≤ b.priority) xs with
    | nil =>
      have hxs : xs = [] :=
        ((hs ▸ List.perm_insertionSort
          (fun a b : ClassificationRule => a.priority ≤ b.priority)
          xs).symm).eq_nil
      rw [hs] at h
      simp only [List.orderedInsert, List.head?] at h
      have hr : r = x := by
        injection h with h'
        exact h'.symm
      subst hr; subst hxs
      exact ⟨List.mem_cons_self _ _, by simp, [], [], rfl, by simp⟩
    | cons y t =>
      rw [hs] at h
      have hy : selectBestRule xs = some y := by
        unfold selectBestRule
        rw [hs]
        rfl
      obtain ⟨hymem, hymin, pre, post, hdecomp, hpre⟩ := ih y hy
      by_cases hxy : x.priority ≤ y.priority
      · have hins :
            List.orderedInsert
              (fun a b : ClassificationRule => a.priority ≤ b.priority)
              x (y :: t) = x :: y :: t := by
          simp [List.orderedInsert, hxy]
        rw [hins] at h
        have hr : r = x := by
          injection h with h'
          exact h'.symm
        subst hr
        refine ⟨List.mem_cons_self _ _, ?_, [], xs, rfl, by simp⟩
        intro s hsmem
        rcases List.mem_cons.mp hsmem with rfl | hsmem'
        · exact le_refl _
        · exact le_trans hxy (hymin s hsmem')
      · have hyx : y.priority < x.priority := lt_of_not_ge hxy
        have hins :
            List.orderedInsert
              (fun a b : ClassificationRule => a.priority ≤ b.priority)
              x (y :: t) =
              y :: List.orderedInsert
                (fun a b : ClassificationRule => a.priority ≤ b.priority)
                x t := by
          simp [List.orderedInsert, hxy]
        rw [hins] at h
        have hr : r = y := by
          injection h with h'
          exact h'.symm
        subst hr
        refine ⟨List.mem_cons_of_mem _ hymem, ?_, x :: pre, post,
          by simp [hdecomp], ?_⟩
        · intro s hsmem
          rcases List.mem_cons.mp hsmem with rfl | hsmem'
          · exact le_of_lt hyx
          · exact hymin s hsmem'
        · intro s hsmem
          rcases List.mem_cons.mp hsmem with rfl | hsmem'
          · exact hyx
          · exact hpre s hsmem'

/-- Closed witness for `selectBestRule_spec`: among matched rules with
priorities 2 and 1, the priority-1 rule is selected. -/
theorem selectBestRule_spec_witness :
    rulePrioOne ∈ [rulePrioTwo, rulePrioOne] ∧
    (∀ s ∈ [rulePrioTwo, rulePrioOne],
      rulePrioOne.priority ≤ s.priority) ∧
    ∃ pre post, [rulePrioTwo, rulePrioOne] = pre ++ rulePrioOne :: post ∧
      ∀ s ∈ pre, rulePrioOne.priority < s.priority :=
  selectBestRule_spec [rulePrioTwo, rulePrioOne] rulePrioOne (by decide)

/-- A non-empty matched-rule list always yields a selected rule. -/
theorem selectBestRule_of_ne_nil (rs : List ClassificationRule)
    (h : rs ≠ []) : ∃ r, selectBestRule rs = some r := by
  unfold selectBestRule
  cases hs : List.insertionSort
      (fun a b : ClassificationRule => a.priority ≤ b.priority) rs with
  | nil =>
    exact absurd
      ((hs ▸ List.perm_insertionSort
        (fun a b : ClassificationRule => a.priority ≤ b.priority)
        rs).symm).eq_nil h
  | cons y t => exact ⟨y, rfl⟩

/-- C6: `classifyTransaction` is a total function into result values: a
rule-fetch failure becomes the classification-error result, an empty
candidate list the no-active-rules result, an unmatched transaction the
no-matching-rule result, a match a success result — and every
unclassified result carries one of exactly these reasons, so no failure
is ever propagated as an exception. -/
theorem classifyTransaction_spec
    (fetchOutcome : Except Unit (List ClassificationRule))
    (u : UserType) (td : TransactionData) :
    (fetchOutcome = Except.error () →
      classifyTransaction fetchOutcome u td = errorResult) ∧
    (∀ rules, fetchOutcome = Except.ok rules →
      (rules = [] →
        classifyTransaction fetchOutcome u td =
          { isClassified := false
            reason := some (match u with
              | UserType.ADMIN => reasonNoRulesAdmin
              | UserType.USER => reasonNoRulesCompany) }) ∧
      (rules ≠ [] → findMatchingRules td rules = [] →
        classifyTransaction fetchOutcome u td = noMatchResult) ∧
      (rules ≠ [] → findMatchingRules td rules ≠ [] →
        (classifyTransaction fetchOutcome u td).isClassified = true ∧
        (classifyTransaction fetchOutcome u td).reason =
          some reasonSuccess)) ∧
    ((classifyTransaction fetchOutcome u td).isClassified = false →
      (classifyTransaction fetchOutcome u td).reason = some reasonError ∨
      (classifyTransaction fetchOutcome u td).reason =
        some reasonNoRulesAdmin ∨
      (classifyTransaction fetchOutcome u td).reason =
        some reasonNoRulesCompany ∨
      (classifyTransaction fetchOutcome u td).reason =
        some reasonNoMatch) := by
  cases fetchOutcome with
  | error e =>
    refine ⟨fun _ => rfl, ?_, ?_⟩
    · intro rules hr
      exact Except.noConfusion hr
    · intro _
      left
      rfl
  | ok rules =>
    refine ⟨fun hcontra => Except.noConfusion hcontra, ?_, ?_⟩
    · intro rules2 hr
      have hrr : rules2 = rules := by
        injection hr with h'
        exact h'.symm
      refine ⟨?_, ?_, ?_⟩
      · intro hnil
        rw [hrr] at hnil
        subst hnil
        cases u <;> rfl
      · intro hne hmatch
        rw [hrr] at hne hmatch
        simp only [classifyTransaction]
        unfold classifyCore
        rw [if_neg (by simp [List.isEmpty_iff, hne])]
        simp only [hmatch, List.isEmpty_nil, if_true]
      · intro hne hmatch
        rw [hrr] at hne hmatch
        simp only [classifyTransaction]
        unfold classifyCore
        rw [if_neg (by simp [List.isEmpty_iff, hne])]
        rw [if_neg (by simp [List.isEmpty_iff, hmatch])]
        obtain ⟨r, hsel⟩ := selectBestRule_of_ne_nil _ hmatch
        rw [hsel]
        exact ⟨rfl, rfl⟩
    · intro hfalse
      simp only [classifyTransaction] at hfalse ⊢
      unfold classifyCore at hfalse ⊢
      by_cases hnil : rules.isEmpty = true
      · rw [if_pos hnil] at hfalse ⊢
        cases u
        · right; left; rfl
        · right; right; left; rfl
      · rw [if_neg hnil] at hfalse ⊢
        by_cases hm : (findMatchingRules td rules).isEmpty = true
        · rw [if_pos hm] at hfalse ⊢
          right; right; right; rfl
        · rw [if_neg hm] at hfalse ⊢
          cases hsel : selectBestRule (findMatchingRules td rules) with
          | none =>
            left
            rfl
          | some r =>
            rw [hsel] at hfalse
            exact Bool.noConfusion hfalse

/-- Closed witness for `classifyTransaction_spec`: an empty candidate
list produces the no-active-rules failure result. -/
theorem classifyTransaction_spec_witness :
    classifyTransaction (Except.ok []) UserType.USER
      { description := "x".toList, depositAmount := 0,
        withdrawalAmount := 5 } =
      { isClassified := false, reason := some reasonNoRulesCompany } :=
  ((classifyTransaction_spec (Except.ok []) UserType.USER
    { description := "x".toList, depositAmount := 0,
      withdrawalAmount := 5 }).2.1 [] rfl).1 rfl

/-- Looking up the key just bound by `mapSet` yields the new value. -/
theorem lookup_mapSet_self {β : Type} (m : List (Str × β)) (k : Str)
    (v : β) : (mapSet m k v).lookup k = some v := by
  simp [mapSet, List.lookup]

/-- A key filtered out of an association list is no longer found. -/
theorem lookup_filter_out {β : Type} (m : List (Str × β)) (k : Str) :
    (m.filter (fun p => !(p.1 == k))).lookup k = none := by
  induction m with
  | nil => rfl
  | cons a m ih =>
    obtain ⟨q, v⟩ := a
    rw [List.filter_cons]
    by_cases ha : (q == k) = true
    · rw [if_neg (by simp [ha])]
      exact ih
    · have hqk : q ≠ k := by
        intro hq
        exact ha (by simp [hq])
      have hka : (k == q) = false := beq_eq_false_iff_ne.mpr
        (fun hk => hqk hk.symm)
      rw [if_pos (by simp [ha])]
      simp only [List.lookup, hka]
      exact ih

/-- Characterization of a store miss of `getCachedRules`: the returned
rules come from the rule store and both maps are rebound, the expiry
to `now + CACHE_TTL`. -/
theorem getCachedRules_store (env : RuleEnv) (st : CacheState) (now : Nat)
    (companyId : Str) (rules : List ClassificationRule) (st2 : CacheState)
    (h : getCachedRules env st now companyId = (rules, st2, true)) :
    rules = env.rulesByCompany companyId ∧
    st2 = { rulesCache := mapSet st.rulesCache (rulesKey companyId) rules
            cacheExpiry :=
              mapSet st.cacheExpiry (rulesKey companyId)
                (now + CACHE_TTL) } := by
  unfold getCachedRules at h
  simp only [] at h
  split at h
  · split at h
    · split at h
      · simp at h
      · simp only [Prod.mk.injEq] at h
        refine ⟨h.1.symm, ?_⟩
        rw [← h.2.1, ← h.1]
    · simp only [Prod.mk.injEq] at h
      refine ⟨h.1.symm, ?_⟩
      rw [← h.2.1, ← h.1]
  · simp only [Prod.mk.injEq] at h
    refine ⟨h.1.symm, ?_⟩
    rw [← h.2.1, ← h.1]

/-- Characterization of a cache hit of `getCachedRules`: the entry was
present with a strictly future expiry, and the state is unchanged. -/
theorem getCachedRules_hit (env : RuleEnv) (st : CacheState) (now : Nat)
    (companyId : Str) (rules : List ClassificationRule) (st2 : CacheState)
    (h : getCachedRules env st now companyId = (rules, st2, false)) :
    ∃ e, st.cacheExpiry.lookup (rulesKey companyId) = some e ∧
      now < e ∧
      st.rulesCache.lookup (rulesKey companyId) = some rules ∧
      st2 = st := by
  unfold getCachedRules at h
  simp only [] at h
  split at h
  · rename_i cached hcached
    split at h
    · rename_i e he
      split at h
      · rename_i hcond
        simp only [Prod.mk.injEq] at h
        exact ⟨e, he, hcond.2, h.1 ▸ hcached, h.2.1.symm⟩
      · simp at h
    · simp at h
  · simp at h

/-- Sufficient condition for a cache hit: a present entry whose expiry
lies strictly in the future is returned unchanged without touching the
store. -/
theorem getCachedRules_hit_of_fresh (env : RuleEnv) (st : CacheState)
    (now : Nat) (companyId : Str) (cached : List ClassificationRule)
    (e : Nat)
    (hc : st.rulesCache.lookup (rulesKey companyId) = some cached)
    (he : st.cacheExpiry.lookup (rulesKey companyId) = some e)
    (hfresh : now < e) :
    getCachedRules env st now companyId = (cached, st, false) := by
  unfold getCachedRules
  simp only [hc, he]
  rw [if_pos ⟨by omega, hfresh⟩]

/-- C7: the rule cache serves an entry only while strictly fresh
(hit iff `now < expiresAt`), a miss refetches from the rule store and
stores a fresh expiry, two lookups for one tenant within a TTL window
invoke the store at most once, and after invalidation the next lookup
hits the store again. -/
theorem getCachedRules_cache_spec (env : RuleEnv) (st : CacheState)
    (companyId : Str) :
    (∀ now rules st2,
      getCachedRules env st now companyId = (rules, st2, false) →
        ∃ e, st.cacheExpiry.lookup (rulesKey companyId) = some e ∧
          now < e ∧
          st.rulesCache.lookup (rulesKey companyId) = some rules ∧
          st2 = st) ∧
    (∀ now cached e,
      st.rulesCache.lookup (rulesKey companyId) = some cached →
      st.cacheExpiry.lookup (rulesKey companyId) = some e →
      now < e →
      getCachedRules env st now companyId = (cached, st, false)) ∧
    (∀ now rules st2,
      getCachedRules env st now companyId = (rules, st2, true) →
        rules = env.rulesByCompany companyId ∧
        st2.rulesCache.lookup (rulesKey companyId) = some rules ∧
        st2.cacheExpiry.lookup (rulesKey companyId) =
          some (now + CACHE_TTL)) ∧
    (∀ t1 t2, t2 < t1 + CACHE_TTL →
      ¬((getCachedRules env st t1 companyId).2.2 = true ∧
        (getCachedRules env (getCachedRules env st t1 companyId).2.1 t2
          companyId).2.2 = true)) ∧
    (∀ now,
      (getCachedRules env (invalidateRulesCache st companyId) now
        companyId).2.2 = true) := by
  refine ⟨?_, ?_, ?_, ?_, ?_⟩
  · intro now rules st2 h
    exact getCachedRules_hit env st now companyId rules st2 h
  · intro now cached e hc he hfresh
    exact getCachedRules_hit_of_fresh env st now companyId cached e hc he
      hfresh
  · intro now rules st2 h
    obtain ⟨h1, h2⟩ := getCachedRules_store env st now companyId rules st2 h
    subst h2
    exact ⟨h1, lookup_mapSet_self _ _ _, lookup_mapSet_self _ _ _⟩
  · intro t1 t2 hlt
    rintro ⟨h1, h2⟩
    have hgeq : getCachedRules env st t1 companyId =
        ((getCachedRules env st t1 companyId).1,
          (getCachedRules env st t1 companyId).2.1, true) := by
      rw [← h1]
    obtain ⟨hrules, hst2⟩ :=
      getCachedRules_store env st t1 companyId _ _ hgeq
    have hc2 : ((getCachedRules env st t1 companyId).2.1).rulesCache.lookup
        (rulesKey companyId) =
        some (getCachedRules env st t1 companyId).1 := by
      rw [hst2]
      exact lookup_mapSet_self _ _ _
    have he2 : ((getCachedRules env st t1 companyId).2.1).cacheExpiry.lookup
        (rulesKey companyId) = some (t1 + CACHE_TTL) := by
      rw [hst2]
      exact lookup_mapSet_self _ _ _
    have hsecond := getCachedRules_hit_of_fresh env
      (getCachedRules env st t1 companyId).2.1 t2 companyId _ _ hc2 he2 hlt
    rw [hsecond] at h2
    exact Bool.noConfusion h2
  · intro now
    have hc : List.lookup (rulesKey companyId)
        (invalidateRulesCache st companyId).rulesCache = none :=
      lookup_filter_out _ _
    unfold getCachedRules
    simp only [hc]

/-- Closed witness for `getCachedRules_cache_spec`: a fresh entry is
served without a store call, and an invalidated tenant is refetched. -/
theorem getCachedRules_cache_spec_witness :
    (getCachedRules
        { rulesByCompany := fun _ => [], allActiveRules := [] }
        { rulesCache := [(rulesKey "c1".toList, [])]
          cacheExpiry := [(rulesKey "c1".toList, 10)] }
        5 "c1".toList =
      ([], { rulesCache := [(rulesKey "c1".toList, [])]
             cacheExpiry := [(rulesKey "c1".toList, 10)] }, false)) ∧
    (getCachedRules
        { rulesByCompany := fun _ => [], allActiveRules := [] }
        (invalidateRulesCache
          { rulesCache := [(rulesKey "c1".toList, [])]
            cacheExpiry := [(rulesKey "c1".toList, 10)] }
          "c1".toList)
        5 "c1".toList).2.2 = true := by
  constructor
  · exact (getCachedRules_cache_spec
      { rulesByCompany := fun _ => [], allActiveRules := [] }
      { rulesCache := [(rulesKey "c1".toList, [])]
        cacheExpiry := [(rulesKey "c1".toList, 10)] }
      "c1".toList).2.1 5 [] 10 (by simp [List.lookup]) (by simp [List.lookup])
      (by decide)
  · exact (getCachedRules_cache_spec
      { rulesByCompany := fun _ => [], allActiveRules := [] }
      { rulesCache := [(rulesKey "c1".toList, [])]
        cacheExpiry := [(rulesKey "c1".toList, 10)] }
      "c1".toList).2.2.2.2 5

/-- Against a non-empty rule set, the batch loop body produces exactly
the single-transaction core result stripped of `actualCompanyId` (the
one field the batch path does not emit). -/
theorem batchClassifyOne_eq_core (rules : List ClassificationRule)
    (t : TransactionData) (h : rules ≠ []) :
    batchClassifyOne rules t =
      { classifyCore UserType.USER t rules with
        actualCompanyId := none } := by
  have hre : rules.isEmpty = false := by simp [List.isEmpty_iff, h]
  unfold batchClassifyOne classifyCore
  simp only [hre, Bool.false_eq_true, if_false]
  by_cases hm : (findMatchingRules t rules).isEmpty = true
  · simp only [hm, if_true]
    rfl
  · have hm2 : (findMatchingRules t rules).isEmpty = false := by
      simpa using hm
    simp only [hm2, Bool.false_eq_true, if_false]
    cases hsel : selectBestRule (findMatchingRules t rules) with
    | none => rfl
    | some r => rfl

/-- C1 (amended): a non-empty batch loads the requested company's rules
through the per-tenant cache exactly once (at most one rule-store
invocation), and every transaction in the batch is evaluated against
that one loaded rule set, each result agreeing with the non-privileged
single-transaction classification (minus `actualCompanyId`); privileged
mode is not part of the batch path. -/
theorem classifyTransactionsBatch_spec (env : RuleEnv) (st : CacheState)
    (now : Nat) (companyId : Str)
    (transactions : List TransactionData) (h : transactions ≠ []) :
    (classifyTransactionsBatch env st now companyId transactions).2.2 ≤ 1 ∧
    (classifyTransactionsBatch env st now companyId transactions).2.1 =
      (getCachedRules env st now companyId).2.1 ∧
    (classifyTransactionsBatch env st now companyId transactions).1 =
      transactions.map (fun t =>
        { classifyCore UserType.USER t
            (getCachedRules env st now companyId).1 with
          actualCompanyId := none }) := by
  unfold classifyTransactionsBatch
  rw [if_neg (by simp [List.isEmpty_iff, h])]
  cases hy : getCachedRules env st now companyId with
  | mk rules rest =>
    cases rest with
    | mk st2 fetched =>
      by_cases hr : rules.isEmpty = true
      · simp only [hr, if_true]
        refine ⟨by cases fetched <;> simp, by trivial, ?_⟩
        have hnil : rules = [] := List.isEmpty_iff.mp hr
        subst hnil
        rfl
      · simp only [hr, Bool.false_eq_true, if_false]
        refine ⟨by cases fetched <;> simp, by trivial, ?_⟩
        exact List.map_congr_left (fun t _ =>
          batchClassifyOne_eq_core rules t
            (fun hnil => hr (by simp [hnil])))

/-- Closed witness for `classifyTransactionsBatch_spec` on a one-element
batch with an empty tenant rule set. -/
theorem classifyTransactionsBatch_spec_witness :
    (classifyTransactionsBatch envAllOnly emptyCache 0 "c1".toList
      [txWithdraw]).2.2 ≤ 1 ∧
    (classifyTransactionsBatch envAllOnly emptyCache 0 "c1".toList
      [txWithdraw]).2.1 =
      (getCachedRules envAllOnly emptyCache 0 "c1".toList).2.1 ∧
    (classifyTransactionsBatch envAllOnly emptyCache 0 "c1".toList
      [txWithdraw]).1 =
      [txWithdraw].map (fun t =>
        { classifyCore UserType.USER t
            (getCachedRules envAllOnly emptyCache 0 "c1".toList).1 with
          actualCompanyId := none }) :=
  classifyTransactionsBatch_spec envAllOnly emptyCache 0 "c1".toList
    [txWithdraw] (by simp)

/-- Counterexample to C1 as stated: with rules present only in the
all-companies set, a privileged single classification succeeds, yet the
batch path for the same transaction reports no active rules — the batch
does not honor privileged mode. -/
theorem classifyTransactionsBatch_admin_counterexample :
    ((classifyTransactionsBatch envAllOnly emptyCache 0 "c1".toList
        [txWithdraw]).1.map (fun r => r.isClassified)) = [false] ∧
    ((classifyTransactionRun envAllOnly emptyCache 0
        { companyId := "c1".toList, userType := UserType.ADMIN,
          transactionData := txWithdraw }).1).isClassified = true := by
  constructor
  · rfl
  · rfl

/-- An absent key means the key-dropping filter changes nothing. -/
theorem filter_eq_self_of_lookup_none (m : List (Str × Nat)) (c : Str)
    (h : m.lookup c = none) :
    m.filter (fun p => !(p.1 == c)) = m := by
  induction m with
  | nil => rfl
  | cons a m ih =>
    obtain ⟨q, v⟩ := a
    by_cases hcq : (c == q) = true
    · simp only [List.lookup, hcq] at h
      exact Option.noConfusion h
    · have hcq2 : (c == q) = false := by
        cases hx : (c == q)
        · rfl
        · exact absurd hx hcq
      simp only [List.lookup, hcq2] at h
      have hqc : (q == c) = false := beq_eq_false_iff_ne.mpr
        (fun hq => (beq_eq_false_iff_ne.mp hcq2) hq.symm)
      rw [List.filter_cons]
      rw [if_pos (by simp [hqc])]
      rw [ih h]

/-- A key found by `lookup` occurs among the keys. -/
theorem mem_keys_of_lookup_some (m : List (Str × Nat)) (c : Str) (w : Nat)
    (h : m.lookup c = some w) : c ∈ m.map Prod.fst := by
  induction m with
  | nil => exact Option.noConfusion h
  | cons a m ih =>
    obtain ⟨q, v⟩ := a
    by_cases hcq : (c == q) = true
    · have hceq : c = q := by simpa using hcq
      simp [hceq]
    · have hcq2 : (c == q) = false := by
        cases hx : (c == q)
        · rfl
        · exact absurd hx hcq
      simp only [List.lookup, hcq2] at h
      simp [ih h]

/-- A present key accounts for exactly its value in the counter sum,
when keys are distinct. -/
theorem sumVals_lookup_split (m : List (Str × Nat)) (c : Str) (n : Nat)
    (hnd : NodupKeys m) (h : m.lookup c = some n) :
    sumVals m = n + sumVals (m.filter (fun p => !(p.1 == c))) := by
  induction m with
  | nil => exact Option.noConfusion h
  | cons a m ih =>
    obtain ⟨q, v⟩ := a
    have hnd2 : NodupKeys m := by
      have := hnd
      simp only [NodupKeys, List.map_cons, List.nodup_cons] at this
      exact this.2
    have hqm : q ∉ m.map Prod.fst := by
      have := hnd
      simp only [NodupKeys, List.map_cons, List.nodup_cons] at this
      exact this.1
    by_cases hcq : (c == q) = true
    · have hceq : c = q := by simpa using hcq
      simp only [List.lookup, hcq] at h
      have hv : v = n := by
        simpa using h
      have hmnone : m.lookup c = none := by
        subst hceq
        cases hl : m.lookup c with
        | none => rfl
        | some w =>
          exfalso
          have : c ∈ m.map Prod.fst := by
            exact mem_keys_of_lookup_some m c w hl
          exact hqm this
      have hqc : (q == c) = true := by simp [hceq]
      rw [List.filter_cons]
      rw [if_neg (by simp [hqc])]
      rw [filter_eq_self_of_lookup_none m c hmnone]
      simp only [sumVals, List.map_cons, List.sum_cons]
      omega
    · have hcq2 : (c == q) = false := by
        cases hx : (c == q)
        · rfl
        · exact absurd hx hcq
      simp only [List.lookup, hcq2] at h
      have hqc : (q == c) = false := beq_eq_false_iff_ne.mpr
        (fun hq => (beq_eq_false_iff_ne.mp hcq2) hq.symm)
      rw [List.filter_cons]
      rw [if_pos (by simp [hqc])]
      have := ih hnd2 h
      simp only [sumVals, List.map_cons, List.sum_cons] at this ⊢
      omega

/-- Rebinding a key keeps the keys distinct. -/
theorem NodupKeys_mapSet (m : List (Str × Nat)) (c : Str) (v : Nat)
    (hnd : NodupKeys m) : NodupKeys (mapSet m c v) := by
  simp only [NodupKeys, mapSet, List.map_cons, List.nodup_cons]
  constructor
  · intro hmem
    obtain ⟨p, hp, hpc⟩ := List.mem_map.mp hmem
    have := (List.mem_filter.mp hp).2
    rw [hpc] at this
    simp at this
  · exact ((List.filter_sublist m).map Prod.fst).nodup hnd

/-- Bumping a category count adds exactly one to the total, when keys
are distinct. -/
theorem sumVals_bumpCategory (m : List (Str × Nat)) (c : Str)
    (hnd : NodupKeys m) :
    sumVals (bumpCategory m c) = sumVals m + 1 := by
  unfold bumpCategory
  cases hl : m.lookup c with
  | some n =>
    have hsplit := sumVals_lookup_split m c n hnd hl
    simp only [mapSet, sumVals, List.map_cons, List.sum_cons]
    simp only [sumVals] at hsplit
    omega
  | none =>
    simp only [mapSet, sumVals, List.map_cons, List.sum_cons]
    rw [filter_eq_self_of_lookup_none m c hl]
    omega

/-- Bumping a category count keeps the keys distinct. -/
theorem NodupKeys_bumpCategory (m : List (Str × Nat)) (c : Str)
    (hnd : NodupKeys m) : NodupKeys (bumpCategory m c) := by
  unfold bumpCategory
  cases m.lookup c with
  | some n => exact NodupKeys_mapSet m c (n + 1) hnd
  | none => exact NodupKeys_mapSet m c 1 hnd

/-- Folding the category-count step over results that all carry a truthy
category adds exactly the number of results to the counter sum. -/
theorem sumVals_foldl_bumpCategoryStep
    (rs : List ClassificationResult) :
    ∀ m, NodupKeys m →
      (∀ r ∈ rs, ∃ c, r.categoryId = some c ∧ c ≠ []) →
      sumVals (rs.foldl bumpCategoryStep m) = sumVals m + rs.length ∧
      NodupKeys (rs.foldl bumpCategoryStep m) := by
  induction rs with
  | nil => intro m hnd _; exact ⟨by simp, hnd⟩
  | cons r rs ih =>
    intro m hnd hall
    obtain ⟨c, hc, hcne⟩ := hall r (List.mem_cons_self r rs)
    have hstep : bumpCategoryStep m r = bumpCategory m c := by
      unfold bumpCategoryStep
      rw [hc]
      show (if c.isEmpty = true then m else bumpCategory m c) =
        bumpCategory m c
      rw [if_neg (by simp [List.isEmpty_iff, hcne])]
    have hnd2 : NodupKeys (bumpCategoryStep m r) := by
      rw [hstep]
      exact NodupKeys_bumpCategory m c hnd
    have hall2 : ∀ r2 ∈ rs, ∃ c2, r2.categoryId = some c2 ∧ c2 ≠ [] :=
      fun r2 hr2 => hall r2 (List.mem_cons_of_mem r hr2)
    obtain ⟨hsum, hnd3⟩ := ih (bumpCategoryStep m r) hnd2 hall2
    refine ⟨?_, by simpa using hnd3⟩
    simp only [List.foldl_cons] at hsum ⊢
    rw [hsum, hstep, sumVals_bumpCategory m c hnd]
    simp only [List.length_cons]
    omega

/-- The fold of `processBatchStep` preserves the counter balance
`classified + unclassified = totalProcessed`. -/
theorem processBatchStep_foldl_counts (u : UserType) (cid : Str)
    (outcomes : List (Except Unit ClassificationResult)) :
    ∀ acc : BatchCounts × List TransactionAssignment,
      acc.1.classifiedCount + acc.1.unclassifiedCount =
        acc.1.totalProcessed →
      (outcomes.foldl (processBatchStep u cid) acc).1.classifiedCount +
        (outcomes.foldl (processBatchStep u cid) acc).1.unclassifiedCount =
        (outcomes.foldl (processBatchStep u cid) acc).1.totalProcessed := by
  induction outcomes with
  | nil => intro acc h; exact h
  | cons o os ih =>
    intro acc h
    simp only [List.foldl_cons]
    apply ih
    cases o with
    | error e => exact h
    | ok cr =>
      unfold processBatchStep
      by_cases hc : (cr.isClassified && truthyStr cr.categoryId) = true
      · simp only [hc, if_true]
        show acc.1.classifiedCount + 1 + acc.1.unclassifiedCount =
          acc.1.totalProcessed + 1
        omega
      · have hc2 : (cr.isClassified && truthyStr cr.categoryId) = false := by
          cases hx : (cr.isClassified && truthyStr cr.categoryId)
          · rfl
          · exact absurd hx hc
        simp only [hc2, Bool.false_eq_true, if_false]
        show acc.1.classifiedCount + (acc.1.unclassifiedCount + 1) =
          acc.1.totalProcessed + 1
        omega

/-- C8: in `generateClassificationStats` the classified and unclassified
counters always partition the total, and when every classified result
carries a truthy category the per-category counts sum to the classified
count; in `processBatch` the classified and unclassified counters always
sum to `totalProcessed`. -/
theorem batchStats_spec :
    (∀ results : List ClassificationResult,
      (generateClassificationStats results).classifiedCount +
        (generateClassificationStats results).unclassifiedCount =
        (generateClassificationStats results).totalCount ∧
      ((∀ r ∈ results, r.isClassified = true →
          ∃ c, r.categoryId = some c ∧ c ≠ []) →
        sumVals (generateClassificationStats results).categoryStats =
          (generateClassificationStats results).classifiedCount)) ∧
    (∀ (u : UserType) (cid : Str)
        (outcomes : List (Except Unit ClassificationResult)),
      (processBatch u cid outcomes).1.classifiedCount +
        (processBatch u cid outcomes).1.unclassifiedCount =
        (processBatch u cid outcomes).1.totalProcessed) := by
  constructor
  · intro results
    constructor
    · simp only [generateClassificationStats]
      have hle := List.length_filter_le
        (fun r : ClassificationResult => r.isClassified) results
      omega
    · intro hall
      simp only [generateClassificationStats]
      have hall2 : ∀ r ∈ results.filter
          (fun r : ClassificationResult => r.isClassified),
          ∃ c, r.categoryId = some c ∧ c ≠ [] := by
        intro r hr
        obtain ⟨hmem, hcl⟩ := List.mem_filter.mp hr
        exact hall r hmem hcl
      have hfold := sumVals_foldl_bumpCategoryStep
        (results.filter (fun r : ClassificationResult => r.isClassified))
        [] (by simp [NodupKeys]) hall2
      simpa [sumVals] using hfold.1
  · intro u cid outcomes
    exact processBatchStep_foldl_counts u cid outcomes _ rfl

/-- Closed witness for `batchStats_spec` on a three-result list with two
classified results in one category. -/
theorem batchStats_spec_witness :
    sumVals (generateClassificationStats
      [{ isClassified := true, categoryId := some "cat1".toList },
       { isClassified := true, categoryId := some "cat1".toList },
       { isClassified := false, reason := some reasonNoMatch }]).categoryStats
      =
      (generateClassificationStats
        [{ isClassified := true, categoryId := some "cat1".toList },
         { isClassified := true, categoryId := some "cat1".toList },
         { isClassified := false,
           reason := some reasonNoMatch }]).classifiedCount :=
  (batchStats_spec.1
    [{ isClassified := true, categoryId := some "cat1".toList },
     { isClassified := true, categoryId := some "cat1".toList },
     { isClassified := false, reason := some reasonNoMatch }]).2
    (by
      intro r hr hcl
      fin_cases hr
      · exact ⟨"cat1".toList, rfl, by decide⟩
      · exact ⟨"cat1".toList, rfl, by decide⟩
      · exact absurd hcl (by decide))

/-- Truthiness of an optional string amounts to carrying a non-empty
value. -/
theorem truthyStr_eq_true_iff (o : Option Str) :
    truthyStr o = true ↔ ∃ c, o = some c ∧ c ≠ [] := by
  cases o with
  | none => simp [truthyStr]
  | some c => simp [truthyStr, List.isEmpty_iff]

/-- The entity list built by the `processBatch` fold is the assignment
of every successfully processed outcome, in order. -/
theorem processBatchStep_foldl_entities (u : UserType) (cid : Str)
    (outcomes : List (Except Unit ClassificationResult)) :
    ∀ acc : BatchCounts × List TransactionAssignment,
      (outcomes.foldl (processBatchStep u cid) acc).2 =
        acc.2 ++ (outcomes.filterMap Except.toOption).map
          (assignTransaction u cid) := by
  induction outcomes with
  | nil => intro acc; simp
  | cons o os ih =>
    intro acc
    simp only [List.foldl_cons]
    cases o with
    | error e =>
      rw [ih]
      simp [processBatchStep, Except.toOption]
    | ok cr =>
      rw [ih]
      simp [processBatchStep, Except.toOption]

/-- C9: in the save-and-classify pipeline a transaction receives a
tenant and category exactly when its classification succeeded with a
truthy category; every other transaction is explicitly nulled out; an
administrator stores the actually matched tenant whenever one is
carried; and the persisted entity list is exactly the per-outcome
assignment. -/
theorem processBatch_assignment_spec (u : UserType) (cid : Str)
    (cr : ClassificationResult) :
    ((cr.isClassified = true ∧ ∃ c, cr.categoryId = some c ∧ c ≠ []) →
      (assignTransaction u cid cr).category_id = cr.categoryId ∧
      (assignTransaction u cid cr).company_id ≠ none) ∧
    (¬(cr.isClassified = true ∧ ∃ c, cr.categoryId = some c ∧ c ≠ []) →
      assignTransaction u cid cr =
        { company_id := none, category_id := none }) ∧
    (u = UserType.ADMIN →
      ∀ ac, cr.actualCompanyId = some ac → ac ≠ [] →
      cr.isClassified = true → (∃ c, cr.categoryId = some c ∧ c ≠ []) →
      (assignTransaction u cid cr).company_id = some ac) ∧
    (∀ outcomes : List (Except Unit ClassificationResult),
      (processBatch u cid outcomes).2 =
        (outcomes.filterMap Except.toOption).map
          (assignTransaction u cid)) := by
  refine ⟨?_, ?_, ?_, ?_⟩
  · rintro ⟨hcl, hcat⟩
    have hcond : (cr.isClassified && truthyStr cr.categoryId) = true := by
      rw [hcl, (truthyStr_eq_true_iff cr.categoryId).mpr hcat]
      rfl
    unfold assignTransaction
    rw [if_pos hcond]
    exact ⟨rfl, by simp⟩
  · intro hnot
    have hcond : ¬(cr.isClassified && truthyStr cr.categoryId) = true := by
      intro hcond
      obtain ⟨h1, h2⟩ := Bool.and_eq_true_iff.mp hcond
      exact hnot ⟨h1, (truthyStr_eq_true_iff cr.categoryId).mp h2⟩
    unfold assignTransaction
    rw [if_neg hcond]
  · intro hadm ac hac hacne hcl hcat
    have hcond : (cr.isClassified && truthyStr cr.categoryId) = true := by
      rw [hcl, (truthyStr_eq_true_iff cr.categoryId).mpr hcat]
      rfl
    have hinner : ((u = UserType.ADMIN : Bool) &&
        truthyStr cr.actualCompanyId) = true := by
      rw [Bool.and_eq_true_iff]
      constructor
      · simp [hadm]
      · exact (truthyStr_eq_true_iff cr.actualCompanyId).mpr
          ⟨ac, hac, hacne⟩
    unfold assignTransaction
    rw [if_pos hcond]
    simp only [hinner, if_true]
    simp [hac]
  · intro outcomes
    unfold processBatch
    rw [processBatchStep_foldl_entities u cid outcomes]
    simp

/-- Closed witness for `processBatch_assignment_spec`: an administrator
stores the actually matched company of a classified result. -/
theorem processBatch_assignment_spec_witness :
    (assignTransaction UserType.ADMIN "c1".toList
      { isClassified := true, categoryId := some "catX".toList,
        actualCompanyId := some "c2".toList }).company_id =
      some "c2".toList :=
  (processBatch_assignment_spec UserType.ADMIN "c1".toList
    { isClassified := true, categoryId := some "catX".toList,
      actualCompanyId := some "c2".toList }).2.2.1 rfl
    "c2".toList rfl (by decide) rfl
    ⟨"catX".toList, rfl, by decide⟩
